import Mathlib

set_option maxRecDepth 8000

/- Shallow embedding of src/epic/matrixes/matrixes.py.

   Tables (pandas DataFrames keyed by (Chromosome, Bin)) are modelled as a
   list of value-column names together with a list of rows; each row carries
   its Chromosome and Bin key and an association list from column name to
   integer value.  A column name absent from a row's association list models
   a missing (NaN) cell.  FDR values and the FDR cutoff are modelled as exact
   rationals (the code only ever compares them).  Fallible pandas operations
   are modelled with Option: `none` models an uncaught exception.
   `get_island_bins` and `put_dfs_in_dict` are dead code on the paths studied
   here and are not modelled. -/

/-- Configuration bundle (the `args` object).  `store_matrix`,
`individual_bedgraph` and `bedgraph` are paths-or-None in the code and are
only tested for truthiness on the paths modelled here, so they are Booleans. -/
structure Args where
  treatment : List String
  control : List String
  window_size : Int
  false_discovery_rate_cutoff : ℚ
  number_cores : Nat
  store_matrix : Bool
  individual_bedgraph : Bool
  bedgraph : Bool
deriving Repr, DecidableEq

/-- One row of the differential-analysis table (columns Chromosome, Start,
End, FDR). -/
structure Region where
  Chromosome : String
  Start : Int
  End : Int
  FDR : ℚ
deriving Repr, DecidableEq

/-- One row of a count table: the (Chromosome, Bin) key and the value cells as
an association list from column name to value; an absent column models a
missing (NaN) cell. -/
structure Row where
  Chromosome : String
  Bin : Int
  vals : List (String × Int)
deriving Repr, DecidableEq

/-- A pandas DataFrame keyed by (Chromosome, Bin): value-column names plus
rows. -/
structure Table where
  cols : List String
  rows : List Row
deriving Repr, DecidableEq

/-- An index key (Chromosome, Bin). -/
abbrev Key := String × Int

/-- Fuel-indexed unfolding of Python `range(s, t, w)` for a positive step:
emit `s` while `s < t`, advancing by `w`. -/
def bin_range_fuel : Nat → Int → Int → Int → List Int
  | 0, _, _, _ => []
  | n + 1, s, t, w => if s < t then s :: bin_range_fuel n (s + w) t w else []

/-- Python `range(s, t, w)` for a positive step `w` (the window size):
`(t - s).toNat` units of fuel are enough since every step advances by at
least 1. -/
def bin_range (s t w : Int) : List Int :=
  bin_range_fuel (t - s).toNat s t w

/-- The `idx_rowdicts` list built by epic's `enriched_bins`: one
(Chromosome, Bin) entry per surviving region (FDR < cutoff) and per bin in
`range(Start, End + 2, window_size)`; the Island column is constantly 1 and is
left implicit.  Duplicate keys from overlapping regions are kept. -/
def island_entries (df : List Region) (args : Args) : List Key :=
  (df.filter (fun r => decide (r.FDR < args.false_discovery_rate_cutoff))).flatMap
    (fun r => (bin_range r.Start (r.End + 2) args.window_size).map
      (fun b => (r.Chromosome, b)))

/-- epic's `enriched_bins`: filter the differential table by FDR < cutoff and
expand each surviving region into its bins.  When no entry at all is
produced, `pd.DataFrame.from_dict` yields a frame with no columns and the
subsequent column selections raise KeyError: modelled as `none`. -/
def enriched_bins (df : List Region) (args : Args) : Option (List Key) :=
  let idx_rowdicts := island_entries df args
  if idx_rowdicts.isEmpty then none else some idx_rowdicts

/-- Python dict assignment `d[k] = v`: overwrite the existing binding or
append a new one. -/
def assoc_put (d : List (String × Table)) (k : String) (v : Table) :
    List (String × Table) :=
  if d.any (fun p => p.1 == k) then
    d.map (fun p => if p.1 == k then (k, v) else p)
  else d ++ [(k, v)]

/-- epic's `put_dfs_in_chromosome_dict`: skip empty tables; key each remaining
table by its first row's Chromosome; a later table silently overwrites an
earlier one with the same key. -/
def put_dfs_in_chromosome_dict (dfs : List Table) : List (String × Table) :=
  dfs.foldl
    (fun d df =>
      match df.rows with
      | [] => d
      | r :: _ => assoc_put d r.Chromosome df)
    []

/-- epic's `get_chromosome_df`: the chromosome's table from the dict, else an
empty placeholder frame carrying only the Chromosome/Bin columns. -/
def get_chromosome_df (chromosome : String) (df_dict : List (String × Table)) :
    Table :=
  match df_dict.lookup chromosome with
  | some df => df
  | none => ⟨[], []⟩

/-- Pandas `islands.join(chip_df, how="right")`.  With how="right" the result
is keyed by `chip_df`'s index: every chip row is kept (with a missing Island
cell when no island entry matches its key, and one result row per matching
island entry otherwise), while island keys absent from `chip_df` are
dropped. -/
def island_right_join (islands : List Key) (chip_df : Table) : Table :=
  ⟨"Island" :: chip_df.cols,
   chip_df.rows.flatMap (fun r =>
     let ms := islands.filter (fun k => k == (r.Chromosome, r.Bin))
     if ms.isEmpty then [r]
     else ms.map (fun _ => ⟨r.Chromosome, r.Bin, ("Island", 1) :: r.vals⟩))⟩

/-- Pandas `left.join(right, how="outer", sort=False)` on the
(Chromosome, Bin) index: every left row paired with each matching right row
(kept alone, with the right cells missing, when there is none), followed by
the right rows whose key does not occur on the left. -/
def outer_join (l r : Table) : Table :=
  ⟨l.cols ++ r.cols,
   (l.rows.flatMap (fun lr =>
      let ms := r.rows.filter
        (fun rr => rr.Chromosome == lr.Chromosome && rr.Bin == lr.Bin)
      if ms.isEmpty then [lr]
      else ms.map (fun rr => ⟨lr.Chromosome, lr.Bin, lr.vals ++ rr.vals⟩)))
     ++ r.rows.filter (fun rr =>
          !(l.rows.any
            (fun lr => lr.Chromosome == rr.Chromosome && lr.Bin == rr.Bin)))⟩

/-- Pandas `.fillna(0)`: every column of the frame gets an explicit value on
every row, the missing cells defaulting to 0. -/
def fillna0 (t : Table) : Table :=
  ⟨t.cols, t.rows.map (fun r =>
    ⟨r.Chromosome, r.Bin, t.cols.map (fun c => (c, (r.vals.lookup c).getD 0))⟩)⟩

/-- epic's `_create_matrixes` for one chromosome: fetch the chromosome's
treatment and control tables (the categorical/int coercions and `set_index`
are identities in this model), right-join the island index with the treatment
table (keyed by the treatment rows), outer-join with the control table and
fill the missing cells with 0. -/
def _create_matrixes (chromosome : String) (chip input : List (String × Table))
    (islands : List Key) : Table :=
  let chip_df := get_chromosome_df chromosome chip
  let input_df := get_chromosome_df chromosome input
  let chip_df := island_right_join islands chip_df
  fillna0 (outer_join chip_df input_df)

/-- The chromosomes present in either partition.  epic natsorts this key set;
no theorem below depends on the order, so the set is modelled keeping first
occurrences. -/
def all_chromosomes (chip input : List (String × Table)) : List String :=
  ((chip.map Prod.fst) ++ (input.map Prod.fst)).dedup

/-- epic's `create_matrixes`: partition both sample groups by chromosome,
build the island index (propagating its failure), and build one merged matrix
per chromosome.  The joblib Parallel pool returns its results in submission
order, so the fan-out is modelled as a map. -/
def create_matrixes (chip input : List Table) (df : List Region) (args : Args) :
    Option (List Table) :=
  let chipd := put_dfs_in_chromosome_dict chip
  let inputd := put_dfs_in_chromosome_dict input
  match enriched_bins df args with
  | none => none
  | some islands =>
    some ((all_chromosomes chipd inputd).map
      (fun chromosome => _create_matrixes chromosome chipd inputd islands))

/-- Pandas `pd.concat(matrixes, axis=0)`: stack the rows; the column set is
the union (cells of a column absent from a chunk's frame are missing on its
rows). -/
def concat_tables (ts : List Table) : Table :=
  ⟨(ts.flatMap Table.cols).dedup, ts.flatMap Table.rows⟩

/-- `matrix.drop("Island", axis=1)`. -/
def drop_island (t : Table) : Table :=
  ⟨t.cols.filter (fun c => c != "Island"),
   t.rows.map (fun r =>
     ⟨r.Chromosome, r.Bin, r.vals.filter (fun p => p.1 != "Island")⟩)⟩

/-- Pandas row-wise `.sum(1)` over the selected columns: missing cells are
skipped, i.e. a NaN cell contributes 0. -/
def row_sum (r : Row) (cols : List String) : Int :=
  (cols.map (fun c => (r.vals.lookup c).getD 0)).sum

/-- epic's `bedgraph`: select the treatment columns (KeyError — modelled
`none` — when one is absent), sum row-wise, keep the rows with a strictly
positive sum, and the same for the control columns; the two resulting (key,
value) tracks go to treatment.bedgraph and input.bedgraph. -/
def bedgraph (matrix : Table) (args : Args) :
    Option (List (Key × Int) × List (Key × Int)) :=
  if args.treatment.all (fun c => matrix.cols.contains c) &&
     args.control.all (fun c => matrix.cols.contains c) then
    some
      (matrix.rows.filterMap (fun r =>
         let s := row_sum r args.treatment
         if 0 < s then some ((r.Chromosome, r.Bin), s) else none),
       matrix.rows.filterMap (fun r =>
         let s := row_sum r args.control
         if 0 < s then some ((r.Chromosome, r.Bin), s) else none))
  else none

/-- Python `str.split(sep)` for a one-character separator, on the character
list of a string: splitting the empty text gives one empty segment, and every
occurrence of the separator starts a new segment. -/
def split_chars (sep : Char) : List Char → List String
  | [] => [""]
  | c :: cs =>
    let rest := split_chars sep cs
    if c = sep then "" :: rest
    else
      match rest with
      | [] => [String.mk [c]]
      | w :: ws => String.mk (c :: w.data) :: ws

/-- Python `str.split(sep)` for a one-character separator. -/
def py_split (sep : Char) (s : String) : List String :=
  split_chars sep s.data

/-- `os.path.basename`: the part after the last slash. -/
def py_basename (name : String) : String :=
  ((py_split '/' name).getLast?).getD name

/-- The output base name computed by `_individual_bedgraphs`: split the base
name on dots; when there are more than two segments, concatenate all but the
last two without separators, else concatenate all but the last one. -/
def strip_name (name : String) : String :=
  let base := py_split '.' (py_basename name)
  if 2 < base.length then String.join (base.take (base.length - 2))
  else String.join (base.take (base.length - 1))

/-- epic's `_individual_bedgraphs` for one input file: select the file's
column (KeyError — modelled `none` — when it is absent), keep the non-zero
entries (`s != 0` keeps the missing cells, since NaN != 0 holds elementwise)
and then drop the missing ones (`.dropna()`), and write the track under the
stripped base name.  A cell is `Option Int` so that a value written as "NA"
(`na_rep`) would be `none`. -/
def _individual_bedgraphs (matrix : Table) (name : String) :
    Option (String × List (Key × Option Int)) :=
  if matrix.cols.contains name then
    some (strip_name name,
      matrix.rows.filterMap (fun r =>
        match r.vals.lookup name with
        | none => none
        | some v => if v = 0 then none else some ((r.Chromosome, r.Bin), some v)))
  else none

/-- epic's `individual_bedgraphs`: one track per treatment and per control
file. -/
def individual_bedgraphs (matrix : Table) (args : Args) :
    Option (List (String × List (Key × Option Int))) :=
  (args.treatment ++ args.control).mapM (fun name => _individual_bedgraphs matrix name)

/-- The observable outcome of `write_matrix_files`: the per-chromosome
matrixes handed to `print_matrixes` (when `store_matrix` is set), the
concatenated Island-dropped matrix used by the bedgraph exporters, and the
two optional exports. -/
structure WMFOut where
  stored : Option (List Table)
  matrix : Table
  individual : Option (List (String × List (Key × Option Int)))
  bg : Option (List (Key × Int) × List (Key × Int))
deriving Repr, DecidableEq

/-- epic's `write_matrix_files`: build the matrixes, hand them as-is to
`print_matrixes` when `store_matrix` is set, then concatenate (`pd.concat`
raises on an empty list — modelled `none`), drop the Island column, and run
the selected exporters (whose KeyErrors propagate). -/
def write_matrix_files (chip input : List Table) (df : List Region)
    (args : Args) : Option WMFOut :=
  match create_matrixes chip input df args with
  | none => none
  | some matrixes =>
    if matrixes.isEmpty then none
    else
      let matrix := drop_island (concat_tables matrixes)
      match (if args.individual_bedgraph
             then (individual_bedgraphs matrix args).map some
             else some none) with
      | none => none
      | some ind =>
        match (if args.bedgraph
               then (bedgraph matrix args).map some
               else some none) with
        | none => none
        | some bg =>
          some ⟨(if args.store_matrix then some matrixes else none),
                matrix, ind, bg⟩

/-! Helper lemmas about the embedded operations. -/

/-- Membership in the fuelled range: with enough fuel and a positive step, the
elements are exactly the progression values below the stop bound. -/
theorem bin_range_fuel_mem {w : Int} (hw : 0 < w) :
    ∀ (n : Nat) (s t b : Int), (t - s).toNat ≤ n →
      (b ∈ bin_range_fuel n s t w ↔ ∃ k : ℕ, b = s + (k : Int) * w ∧ b < t) := by
  intro n
  induction n with
  | zero =>
    intro s t b h
    simp only [bin_range_fuel, List.not_mem_nil, false_iff]
    rintro ⟨k, rfl, hb⟩
    have hk : 0 ≤ (k : Int) * w := mul_nonneg (by positivity) hw.le
    omega
  | succ n ih =>
    intro s t b h
    by_cases hst : s < t
    · simp only [bin_range_fuel, if_pos hst, List.mem_cons]
      rw [ih (s + w) t b (by omega)]
      constructor
      · rintro (rfl | ⟨k, rfl, hb⟩)
        · exact ⟨0, by ring, hst⟩
        · exact ⟨k + 1, by push_cast; ring, hb⟩
      · rintro ⟨k, rfl, hb⟩
        cases k with
        | zero => left; simp
        | succ k => right; exact ⟨k, by push_cast; ring, hb⟩
    · simp only [bin_range_fuel, if_neg hst, List.not_mem_nil, false_iff]
      rintro ⟨k, rfl, hb⟩
      have hk : 0 ≤ (k : Int) * w := mul_nonneg (by positivity) hw.le
      omega

/-- Membership in `bin_range`: for a positive step the elements are exactly
the progression `s, s + w, s + 2*w, ...` of values strictly below `t`. -/
theorem mem_bin_range {s t w b : Int} (hw : 0 < w) :
    b ∈ bin_range s t w ↔ ∃ k : ℕ, b = s + (k : Int) * w ∧ b < t :=
  bin_range_fuel_mem hw _ s t b (Nat.le_refl _)

/-- Every element of the fuelled range is at least the start value. -/
theorem bin_range_fuel_le {w : Int} (hw : 0 < w) :
    ∀ (n : Nat) (s t b : Int), b ∈ bin_range_fuel n s t w → s ≤ b := by
  intro n
  induction n with
  | zero => intro s t b h; simp [bin_range_fuel] at h
  | succ n ih =>
    intro s t b h
    by_cases hst : s < t
    · simp only [bin_range_fuel, if_pos hst, List.mem_cons] at h
      rcases h with rfl | h
      · exact le_refl b
      · have := ih (s + w) t b h
        omega
    · simp [bin_range_fuel, if_neg hst] at h

/-- The fuelled range is strictly increasing, hence has no duplicates. -/
theorem bin_range_fuel_nodup {w : Int} (hw : 0 < w) :
    ∀ (n : Nat) (s t : Int), (bin_range_fuel n s t w).Nodup := by
  intro n
  induction n with
  | zero => intro s t; simp [bin_range_fuel]
  | succ n ih =>
    intro s t
    by_cases hst : s < t
    · simp only [bin_range_fuel, if_pos hst, List.nodup_cons]
      refine ⟨fun hmem => ?_, ih (s + w) t⟩
      have := bin_range_fuel_le hw n (s + w) t s hmem
      omega
    · simp [bin_range_fuel, if_neg hst]

/-- `bin_range` has no duplicate elements when the step is positive. -/
theorem bin_range_nodup {s t w : Int} (hw : 0 < w) : (bin_range s t w).Nodup :=
  bin_range_fuel_nodup hw _ s t

/-- C7: a (Chromosome, Bin) pair lies in the island index exactly when some
region of the differential table has FDR strictly below the cutoff, has that
chromosome, and generates that bin in the arithmetic progression
`Start, Start + window_size, ...` of values strictly below `End + 2`; and for
the region Start=100, End=250 with window_size=100 the generated bins are
exactly 100 and 200. -/
theorem C7_island_index_bins (df : List Region) (args : Args)
    (hw : 0 < args.window_size) (c : String) (b : Int) :
    ((c, b) ∈ island_entries df args ↔
      ∃ r ∈ df, r.FDR < args.false_discovery_rate_cutoff ∧ r.Chromosome = c ∧
        ∃ k : ℕ, b = r.Start + (k : Int) * args.window_size ∧ b < r.End + 2) ∧
    enriched_bins [⟨"chr1", 100, 250, 0⟩] ⟨["f1"], [], 100, 1, 1, false, false, false⟩ =
      some [("chr1", 100), ("chr1", 200)] := by
  constructor
  · simp only [island_entries, List.mem_flatMap, List.mem_filter, List.mem_map,
      decide_eq_true_eq]
    constructor
    · rintro ⟨r, ⟨hr, hfdr⟩, b', hb', heq⟩
      obtain ⟨h1, h2⟩ := Prod.mk.injEq .. ▸ heq
      subst h2
      exact ⟨r, hr, hfdr, h1, (mem_bin_range hw).1 hb'⟩
    · rintro ⟨r, hr, hfdr, hc, hk⟩
      exact ⟨r, ⟨hr, hfdr⟩, b, (mem_bin_range hw).2 hk, by rw [hc]⟩
  · decide

/-- Witness for C7 at a concrete input: window size 100 is positive and the
characterization holds for the pair ("chr1", 200). -/
theorem C7_island_index_bins_witness :
    (0 : Int) < 100 ∧
    (((("chr1" : String), (200 : Int)) ∈
        island_entries [⟨"chr1", 100, 250, 0⟩] ⟨["f1"], [], 100, 1, 1, false, false, false⟩ ↔
      ∃ r ∈ [(⟨"chr1", 100, 250, 0⟩ : Region)],
        r.FDR < (1 : ℚ) ∧ r.Chromosome = "chr1" ∧
          ∃ k : ℕ, (200 : Int) = r.Start + (k : Int) * 100 ∧ (200 : Int) < r.End + 2) ∧
    enriched_bins [⟨"chr1", 100, 250, 0⟩] ⟨["f1"], [], 100, 1, 1, false, false, false⟩ =
      some [("chr1", 100), ("chr1", 200)]) :=
  ⟨by decide,
   C7_island_index_bins [⟨"chr1", 100, 250, 0⟩] ⟨["f1"], [], 100, 1, 1, false, false, false⟩
     (by decide) "chr1" 200⟩

/-- C3 counterexample: with a single region whose FDR (10) is not below the
cutoff (1), `enriched_bins` does not return an empty island index — the empty
frame makes the column selection raise (modelled `none`) — and the pipeline
aborts instead of completing. -/
theorem C3_counterexample :
    enriched_bins [⟨"c1", 100, 250, 10⟩] ⟨["f1"], [], 100, 1, 1, false, false, false⟩ = none ∧
    write_matrix_files [⟨["f1"], [⟨"c1", 100, [("f1", 5)]⟩]⟩] []
        [⟨"c1", 100, 250, 10⟩] ⟨["f1"], [], 100, 1, 1, false, false, false⟩ = none := by
  decide

/-- C3 amended: when no row of the differential table has FDR strictly below
the cutoff, `enriched_bins` raises (modelled `none`) and `create_matrixes`
propagates the failure instead of completing with an empty island index. -/
theorem C3_no_survivor_raises (df : List Region) (args : Args)
    (chip input : List Table)
    (h : ∀ r ∈ df, ¬ r.FDR < args.false_discovery_rate_cutoff) :
    enriched_bins df args = none ∧ create_matrixes chip input df args = none := by
  have hfilter : df.filter (fun r => decide (r.FDR < args.false_discovery_rate_cutoff)) = [] := by
    rw [List.filter_eq_nil_iff]
    intro r hr
    simpa using h r hr
  have hie : island_entries df args = [] := by
    rw [island_entries, hfilter]; rfl
  have he : enriched_bins df args = none := by
    rw [enriched_bins]; simp [hie]
  exact ⟨he, by simp [create_matrixes, he]⟩

/-- Witness for C3 at a concrete input: the lone region has FDR 10 ≥ cutoff 1,
the island index construction fails, and the failure propagates. -/
theorem C3_no_survivor_raises_witness :
    (∀ r ∈ [(⟨"c1", 100, 250, 10⟩ : Region)],
        ¬ r.FDR < (Args.mk ["f1"] [] 100 1 1 false false false).false_discovery_rate_cutoff) ∧
    (enriched_bins [⟨"c1", 100, 250, 10⟩] ⟨["f1"], [], 100, 1, 1, false, false, false⟩ = none ∧
     create_matrixes [⟨["f1"], [⟨"c1", 100, [("f1", 5)]⟩]⟩] []
        [⟨"c1", 100, 250, 10⟩] ⟨["f1"], [], 100, 1, 1, false, false, false⟩ = none) :=
  ⟨by decide,
   C3_no_survivor_raises [⟨"c1", 100, 250, 10⟩] ⟨["f1"], [], 100, 1, 1, false, false, false⟩
     [⟨["f1"], [⟨"c1", 100, [("f1", 5)]⟩]⟩] [] (by decide)⟩

/-- C9 counterexample: for "a.b.c.bed.gz" the code yields "abc", not "a.b.c"
(interior dots are not preserved), and for "x.y.bed" — no compound extension —
it still removes two segments, yielding "x" instead of "x.y". -/
theorem C9_counterexample :
    strip_name "a.b.c.bed.gz" = "abc" ∧ strip_name "a.b.c.bed.gz" ≠ "a.b.c" ∧
    strip_name "x.y.bed" = "x" ∧ strip_name "x.y.bed" ≠ "x.y" := by decide

/-- C9 amended: the per-file output base name concatenates, without any
separator, all dot-separated segments of the file's base name except the last
two when there are more than two segments, and except the last one otherwise;
the trigger is the segment count, not the detection of a compound extension,
and interior dots are removed rather than preserved. -/
theorem C9_strip_rule (name : String) (parts : List String)
    (h : py_split '.' (py_basename name) = parts) :
    strip_name name =
      (if 2 < parts.length then String.join (parts.take (parts.length - 2))
       else String.join (parts.take (parts.length - 1))) := by
  simp only [strip_name]
  rw [h]

/-- Witness for C9 at a concrete input: "a.b.c.bed.gz" splits into five
segments and the stripping rule applies. -/
theorem C9_strip_rule_witness :
    py_split '.' (py_basename "a.b.c.bed.gz") = ["a", "b", "c", "bed", "gz"] ∧
    strip_name "a.b.c.bed.gz" =
      (if 2 < (["a", "b", "c", "bed", "gz"] : List String).length then
        String.join ((["a", "b", "c", "bed", "gz"] : List String).take
          ((["a", "b", "c", "bed", "gz"] : List String).length - 2))
       else
        String.join ((["a", "b", "c", "bed", "gz"] : List String).take
          ((["a", "b", "c", "bed", "gz"] : List String).length - 1))) :=
  ⟨by decide, C9_strip_rule "a.b.c.bed.gz" ["a", "b", "c", "bed", "gz"] (by decide)⟩

/-- C4 counterexample: the matrix has a missing (NaN) cell for column "f1" at
key ("c1", 100), yet the per-file track is empty — no "NA" row is emitted for
that key, because `.dropna()` removes the rows `s != 0` had kept. -/
theorem C4_counterexample :
    _individual_bedgraphs ⟨["f1"], [⟨"c1", 100, []⟩]⟩ "f1" = some ("", []) ∧
    (Row.mk "c1" 100 []).vals.lookup "f1" = none := by decide

/-- C4 amended: the per-file bedgraph for a column never contains a row whose
value is exactly 0 and never contains an NA row either: rows where the matrix
value is missing are dropped, and the output consists exactly of the rows
whose value for that column is present and non-zero. -/
theorem C4_individual_track (matrix : Table) (name : String)
    (out : String × List (Key × Option Int))
    (h : _individual_bedgraphs matrix name = some out) :
    (∀ kv ∈ out.2, kv.2 ≠ some 0 ∧ kv.2 ≠ none) ∧
    (∀ kv ∈ out.2, ∃ r ∈ matrix.rows,
        kv.1 = (r.Chromosome, r.Bin) ∧ r.vals.lookup name = kv.2) ∧
    (∀ r ∈ matrix.rows, ∀ v : Int, r.vals.lookup name = some v → v ≠ 0 →
        ((r.Chromosome, r.Bin), some v) ∈ out.2) := by
  rw [_individual_bedgraphs] at h
  split at h
  · injection h with h
    subst h
    refine ⟨?_, ?_, ?_⟩
    · intro kv hkv
      simp only [List.mem_filterMap] at hkv
      obtain ⟨r, _, hf⟩ := hkv
      rcases hl : r.vals.lookup name with _ | v
      · simp only [hl] at hf
        exact Option.noConfusion hf
      · simp only [hl] at hf
        by_cases hv : v = 0
        · rw [if_pos hv] at hf; exact absurd hf (by simp)
        · rw [if_neg hv] at hf
          injection hf with hf
          subst hf
          exact ⟨by simpa using hv, by simp⟩
    · intro kv hkv
      simp only [List.mem_filterMap] at hkv
      obtain ⟨r, hr, hf⟩ := hkv
      rcases hl : r.vals.lookup name with _ | v
      · simp only [hl] at hf
        exact Option.noConfusion hf
      · simp only [hl] at hf
        by_cases hv : v = 0
        · rw [if_pos hv] at hf; exact absurd hf (by simp)
        · rw [if_neg hv] at hf
          injection hf with hf
          subst hf
          exact ⟨r, hr, rfl, hl⟩
    · intro r hr v hl hv
      simp only [List.mem_filterMap]
      exact ⟨r, hr, by simp only [hl]; rw [if_neg hv]⟩
  · exact Option.noConfusion h

/-- Witness for C4 at a concrete input: one present non-zero value, one exact
zero, one missing cell; the track keeps only the first. -/
theorem C4_individual_track_witness :
    _individual_bedgraphs ⟨["f1"], [⟨"c1", 100, [("f1", 5)]⟩, ⟨"c1", 200, [("f1", 0)]⟩,
        ⟨"c1", 300, []⟩]⟩ "f1" = some ("", [(("c1", 100), some 5)]) ∧
    ((∀ kv ∈ [((("c1", 100) : Key), some (5 : Int))], kv.2 ≠ some 0 ∧ kv.2 ≠ none) ∧
     (∀ kv ∈ [((("c1", 100) : Key), some (5 : Int))],
        ∃ r ∈ (Table.mk ["f1"] [⟨"c1", 100, [("f1", 5)]⟩, ⟨"c1", 200, [("f1", 0)]⟩,
            ⟨"c1", 300, []⟩]).rows,
          kv.1 = (r.Chromosome, r.Bin) ∧ r.vals.lookup "f1" = kv.2) ∧
     (∀ r ∈ (Table.mk ["f1"] [⟨"c1", 100, [("f1", 5)]⟩, ⟨"c1", 200, [("f1", 0)]⟩,
          ⟨"c1", 300, []⟩]).rows,
        ∀ v : Int, r.vals.lookup "f1" = some v → v ≠ 0 →
          ((r.Chromosome, r.Bin), some v) ∈ [((("c1", 100) : Key), some (5 : Int))])) :=
  ⟨by decide,
   C4_individual_track
     ⟨["f1"], [⟨"c1", 100, [("f1", 5)]⟩, ⟨"c1", 200, [("f1", 0)]⟩, ⟨"c1", 300, []⟩]⟩
     "f1" ("", [(("c1", 100), some 5)]) (by decide)⟩

/-- C1 counterexample: with island bin ("c1", 100) and a treatment table whose
only row has key ("c1", 0), the treatment-side join keeps the non-island
treatment key ("c1", 0) and drops the island bin ("c1", 100) — the join's key
set equals the treatment keys, not the island bins. -/
theorem C1_counterexample :
    ¬ (("c1", (100 : Int)) ∈ (island_right_join [("c1", 100)]
        ⟨["f1"], [⟨"c1", 0, [("f1", 5)]⟩]⟩).rows.map (fun r => (r.Chromosome, r.Bin))) ∧
    ("c1", (0 : Int)) ∈ (island_right_join [("c1", 100)]
        ⟨["f1"], [⟨"c1", 0, [("f1", 5)]⟩]⟩).rows.map (fun r => (r.Chromosome, r.Bin)) := by
  decide

/-- C1 amended: `islands.join(chip_df, how="right")` is keyed by the treatment
table, not by the island index: a (Chromosome, Bin) key occurs among the rows
of the treatment-side join result exactly when it occurs among the treatment
rows of that chromosome — treatment rows without a matching island bin are
kept (Island missing, later filled with 0) and island bins without treatment
data are dropped. -/
theorem C1_right_join_keys (islands : List Key) (chip_df : Table)
    (c : String) (b : Int) :
    (∃ q ∈ (island_right_join islands chip_df).rows, q.Chromosome = c ∧ q.Bin = b) ↔
    (∃ r ∈ chip_df.rows, r.Chromosome = c ∧ r.Bin = b) := by
  simp only [island_right_join, List.mem_flatMap]
  constructor
  · rintro ⟨q, ⟨r, hr, hq⟩, hc, hb⟩
    refine ⟨r, hr, ?_⟩
    by_cases hms : (islands.filter (fun k => k == (r.Chromosome, r.Bin))).isEmpty
    · rw [if_pos hms] at hq
      rw [List.mem_singleton] at hq
      subst hq
      exact ⟨hc, hb⟩
    · rw [if_neg hms] at hq
      obtain ⟨k0, _, hk0⟩ := List.mem_map.1 hq
      rw [← hk0] at hc hb
      exact ⟨hc, hb⟩
  · rintro ⟨r, hr, hc, hb⟩
    by_cases hms : (islands.filter (fun k => k == (r.Chromosome, r.Bin))).isEmpty
    · exact ⟨r, ⟨r, hr, by rw [if_pos hms]; exact List.mem_singleton.2 rfl⟩, hc, hb⟩
    · have hne : islands.filter (fun k => k == (r.Chromosome, r.Bin)) ≠ [] := by
        intro hnil
        rw [hnil] at hms
        exact hms rfl
      obtain ⟨k0, hk0⟩ := List.exists_mem_of_ne_nil _ hne
      exact ⟨⟨r.Chromosome, r.Bin, ("Island", 1) :: r.vals⟩,
        ⟨r, hr, by rw [if_neg hms]; exact List.mem_map.2 ⟨k0, hk0, rfl⟩⟩, hc, hb⟩

/-- Counting a pair in the list obtained by pairing a fixed chromosome with
each bin: the count is the bin's count when the chromosomes agree, else 0. -/
theorem count_pair_map (ch c : String) (b : Int) (l : List Int) :
    (l.map (fun b' => (ch, b'))).count (c, b) = if ch = c then l.count b else 0 := by
  induction l with
  | nil => simp
  | cons x l ih =>
    simp only [List.map_cons, List.count_cons, ih, beq_iff_eq, Prod.mk.injEq]
    by_cases hc : ch = c
    · subst hc
      by_cases hx : x = b
      · subst hx; simp
      · simp [hx]
    · simp [hc]

/-- C6 counterexample: two surviving regions produce the same pair ("c1", 100)
and the island list keeps both entries; joined against a treatment table with
a row at that key, the merged matrix for "c1" contains two rows with the key
("c1", 100), not at most one. -/
theorem C6_counterexample :
    (island_entries [⟨"c1", 100, 150, 0⟩, ⟨"c1", 100, 120, 0⟩]
        ⟨["f1"], [], 100, 1, 1, false, false, false⟩).count ("c1", 100) = 2 ∧
    (((create_matrixes [⟨["f1"], [⟨"c1", 100, [("f1", 5)]⟩]⟩] []
        [⟨"c1", 100, 150, 0⟩, ⟨"c1", 100, 120, 0⟩]
        ⟨["f1"], [], 100, 1, 1, false, false, false⟩).getD []).flatMap Table.rows
      |>.filter (fun r => r.Chromosome == "c1" && r.Bin == 100)).length = 2 := by
  decide

/-- C6 amended: the island index does not collapse duplicates — a
(Chromosome, Bin) pair occurs in it once per surviving region that generates
it, so overlapping regions leave multiple entries and the per-chromosome join
then emits one merged row per matching entry. -/
theorem C6_duplicates_kept (df : List Region) (args : Args)
    (hw : 0 < args.window_size) (c : String) (b : Int) :
    (island_entries df args).count (c, b) =
      (df.filter (fun r =>
        decide (r.FDR < args.false_discovery_rate_cutoff) &&
        (decide (r.Chromosome = c) &&
         decide (b ∈ bin_range r.Start (r.End + 2) args.window_size)))).length := by
  induction df with
  | nil => simp [island_entries]
  | cons r df ih =>
    simp only [island_entries] at ih ⊢
    rw [List.filter_cons, List.filter_cons]
    by_cases hp : r.FDR < args.false_discovery_rate_cutoff
    · rw [if_pos (by simpa using hp), List.flatMap_cons, List.count_append, ih,
        count_pair_map]
      by_cases hc : r.Chromosome = c
      · rw [if_pos hc, List.count_eq_of_nodup (bin_range_nodup hw)]
        by_cases hb : b ∈ bin_range r.Start (r.End + 2) args.window_size
        · rw [if_pos hb, if_pos (by simp [hp, hc, hb]), List.length_cons]
          omega
        · rw [if_neg hb, if_neg (by simp [hb])]
          omega
      · rw [if_neg hc, if_neg (by simp [hc])]
        omega
    · rw [if_neg (by simpa using hp), if_neg (by simp [hp])]
      exact ih

/-- Witness for C6 at a concrete input: window size 100 is positive and the
pair ("c1", 100), generated by both overlapping surviving regions, is counted
twice. -/
theorem C6_duplicates_kept_witness :
    (0 : Int) < 100 ∧
    (island_entries [⟨"c1", 100, 150, 0⟩, ⟨"c1", 100, 120, 0⟩]
        ⟨["f1"], [], 100, 1, 1, false, false, false⟩).count ("c1", 100) =
      ([(⟨"c1", 100, 150, 0⟩ : Region), ⟨"c1", 100, 120, 0⟩].filter (fun r =>
        decide (r.FDR < (Args.mk ["f1"] [] 100 1 1 false false false).false_discovery_rate_cutoff) &&
        (decide (r.Chromosome = "c1") &&
         decide ((100 : Int) ∈ bin_range r.Start (r.End + 2)
           (Args.mk ["f1"] [] 100 1 1 false false false).window_size)))).length :=
  ⟨by decide,
   C6_duplicates_kept [⟨"c1", 100, 150, 0⟩, ⟨"c1", 100, 120, 0⟩]
     ⟨["f1"], [], 100, 1, 1, false, false, false⟩ (by decide) "c1" 100⟩

/-- C8: every value row of the aggregate treatment (resp. control) track is
the row-wise sum of the selected treatment (resp. control) columns of some
matrix row with that key and is strictly positive, and every matrix row whose
treatment (resp. control) sum is strictly positive contributes its key and
sum to the track — rows with sum ≤ 0 are absent. -/
theorem C8_bedgraph_sums (matrix : Table) (args : Args)
    (out : List (Key × Int) × List (Key × Int))
    (h : bedgraph matrix args = some out) :
    (∀ kv ∈ out.1, 0 < kv.2 ∧ ∃ r ∈ matrix.rows,
        kv.1 = (r.Chromosome, r.Bin) ∧ kv.2 = row_sum r args.treatment) ∧
    (∀ r ∈ matrix.rows, 0 < row_sum r args.treatment →
        ((r.Chromosome, r.Bin), row_sum r args.treatment) ∈ out.1) ∧
    (∀ kv ∈ out.2, 0 < kv.2 ∧ ∃ r ∈ matrix.rows,
        kv.1 = (r.Chromosome, r.Bin) ∧ kv.2 = row_sum r args.control) ∧
    (∀ r ∈ matrix.rows, 0 < row_sum r args.control →
        ((r.Chromosome, r.Bin), row_sum r args.control) ∈ out.2) := by
  rw [bedgraph] at h
  split at h
  · injection h with h
    subst h
    refine ⟨?_, ?_, ?_, ?_⟩
    · intro kv hkv
      simp only [List.mem_filterMap] at hkv
      obtain ⟨r, hr, hf⟩ := hkv
      split at hf
      · rename_i hs
        injection hf with hf
        subst hf
        exact ⟨hs, r, hr, rfl, rfl⟩
      · exact Option.noConfusion hf
    · intro r hr hs
      simp only [List.mem_filterMap]
      refine ⟨r, hr, ?_⟩
      rw [if_pos hs]
    · intro kv hkv
      simp only [List.mem_filterMap] at hkv
      obtain ⟨r, hr, hf⟩ := hkv
      split at hf
      · rename_i hs
        injection hf with hf
        subst hf
        exact ⟨hs, r, hr, rfl, rfl⟩
      · exact Option.noConfusion hf
    · intro r hr hs
      simp only [List.mem_filterMap]
      refine ⟨r, hr, ?_⟩
      rw [if_pos hs]
  · exact Option.noConfusion h

/-- Witness for C8 at a concrete input: a matrix with value 5 for treatment
column "f1" and 2 for control column "g1" at ("c1", 100), and a zero-sum row
at ("c1", 200) that is absent from both tracks. -/
theorem C8_bedgraph_sums_witness :
    bedgraph ⟨["f1", "g1"], [⟨"c1", 100, [("f1", 5), ("g1", 2)]⟩, ⟨"c1", 200, [("f1", 0)]⟩]⟩
        ⟨["f1"], ["g1"], 100, 1, 1, false, false, false⟩ =
      some ([(("c1", 100), 5)], [(("c1", 100), 2)]) ∧
    ((∀ kv ∈ [((("c1", 100) : Key), (5 : Int))], 0 < kv.2 ∧
        ∃ r ∈ (Table.mk ["f1", "g1"]
            [⟨"c1", 100, [("f1", 5), ("g1", 2)]⟩, ⟨"c1", 200, [("f1", 0)]⟩]).rows,
          kv.1 = (r.Chromosome, r.Bin) ∧ kv.2 = row_sum r ["f1"]) ∧
     (∀ r ∈ (Table.mk ["f1", "g1"]
          [⟨"c1", 100, [("f1", 5), ("g1", 2)]⟩, ⟨"c1", 200, [("f1", 0)]⟩]).rows,
        0 < row_sum r ["f1"] →
          ((r.Chromosome, r.Bin), row_sum r ["f1"]) ∈ [((("c1", 100) : Key), (5 : Int))]) ∧
     (∀ kv ∈ [((("c1", 100) : Key), (2 : Int))], 0 < kv.2 ∧
        ∃ r ∈ (Table.mk ["f1", "g1"]
            [⟨"c1", 100, [("f1", 5), ("g1", 2)]⟩, ⟨"c1", 200, [("f1", 0)]⟩]).rows,
          kv.1 = (r.Chromosome, r.Bin) ∧ kv.2 = row_sum r ["g1"]) ∧
     (∀ r ∈ (Table.mk ["f1", "g1"]
          [⟨"c1", 100, [("f1", 5), ("g1", 2)]⟩, ⟨"c1", 200, [("f1", 0)]⟩]).rows,
        0 < row_sum r ["g1"] →
          ((r.Chromosome, r.Bin), row_sum r ["g1"]) ∈ [((("c1", 100) : Key), (2 : Int))])) :=
  ⟨by decide,
   C8_bedgraph_sums
     ⟨["f1", "g1"], [⟨"c1", 100, [("f1", 5), ("g1", 2)]⟩, ⟨"c1", 200, [("f1", 0)]⟩]⟩
     ⟨["f1"], ["g1"], 100, 1, 1, false, false, false⟩
     ([(("c1", 100), 5)], [(("c1", 100), 2)]) (by decide)⟩

/-- C10: a missing cell contributes 0 to the row-wise sum — prepending a
column whose cell is missing leaves `row_sum` unchanged — so a key all of
whose treatment cells are missing sums to 0 on every one of its rows and is
omitted from the treatment track (never written as "NA"). -/
theorem C10_missing_contributes_zero (matrix : Table) (args : Args)
    (out : List (Key × Int) × List (Key × Int)) (k : Key)
    (r0 : Row) (c0 : String) (cols : List String)
    (h : bedgraph matrix args = some out)
    (hc0 : r0.vals.lookup c0 = none)
    (hk : ∀ r ∈ matrix.rows, (r.Chromosome, r.Bin) = k →
        ∀ c ∈ args.treatment, r.vals.lookup c = none) :
    row_sum r0 (c0 :: cols) = row_sum r0 cols ∧
    (∀ r ∈ matrix.rows, (r.Chromosome, r.Bin) = k → row_sum r args.treatment = 0) ∧
    (∀ kv ∈ out.1, kv.1 ≠ k) := by
  have hz : ∀ r ∈ matrix.rows, (r.Chromosome, r.Bin) = k → row_sum r args.treatment = 0 := by
    intro r hr hkey
    rw [row_sum]
    apply List.sum_eq_zero
    intro x hx
    obtain ⟨c, hc, rfl⟩ := List.mem_map.1 hx
    rw [hk r hr hkey c hc]
    rfl
  refine ⟨by simp [row_sum, hc0], hz, ?_⟩
  rw [bedgraph] at h
  split at h
  · injection h with h
    subst h
    intro kv hkv
    simp only [List.mem_filterMap] at hkv
    obtain ⟨r, hr, hf⟩ := hkv
    split at hf
    · rename_i hs
      injection hf with hf
      subst hf
      intro hkeq
      rw [hz r hr hkeq] at hs
      exact lt_irrefl 0 hs
    · exact Option.noConfusion hf
  · exact Option.noConfusion h

/-- Witness for C10 at a concrete input: the row at ("c2", 50) has no
treatment cell at all, sums to 0, and is absent from the treatment track. -/
theorem C10_missing_contributes_zero_witness :
    bedgraph ⟨["f1"], [⟨"c1", 100, [("f1", 3)]⟩, ⟨"c2", 50, []⟩]⟩
        ⟨["f1"], [], 100, 1, 1, false, false, false⟩ =
      some ([(("c1", 100), 3)], []) ∧
    (Row.mk "c2" 50 []).vals.lookup "f1" = none ∧
    (row_sum ⟨"c2", 50, []⟩ ["f1"] = row_sum ⟨"c2", 50, []⟩ [] ∧
     (∀ r ∈ (Table.mk ["f1"] [⟨"c1", 100, [("f1", 3)]⟩, ⟨"c2", 50, []⟩]).rows,
        (r.Chromosome, r.Bin) = (("c2", 50) : Key) → row_sum r ["f1"] = 0) ∧
     (∀ kv ∈ [((("c1", 100) : Key), (3 : Int))], kv.1 ≠ (("c2", 50) : Key))) :=
  ⟨by decide, by decide,
   C10_missing_contributes_zero
     ⟨["f1"], [⟨"c1", 100, [("f1", 3)]⟩, ⟨"c2", 50, []⟩]⟩
     ⟨["f1"], [], 100, 1, 1, false, false, false⟩
     ([(("c1", 100), 3)], []) ("c2", 50) ⟨"c2", 50, []⟩ "f1" []
     (by decide) (by decide) (by decide)⟩

/-- A binding found in a dict after an assignment is the assigned one or was
already present. -/
theorem mem_assoc_put {d : List (String × Table)} {k : String} {v : Table}
    {p : String × Table} (h : p ∈ assoc_put d k v) : p = (k, v) ∨ p ∈ d := by
  rw [assoc_put] at h
  split at h
  · obtain ⟨q, hq, hpq⟩ := List.mem_map.1 h
    by_cases hk : q.1 == k
    · rw [if_pos hk] at hpq
      exact Or.inl hpq.symm
    · rw [if_neg hk] at hpq
      exact Or.inr (hpq ▸ hq)
  · rcases List.mem_append.1 h with h' | h'
    · exact Or.inr h'
    · exact Or.inl (List.mem_singleton.1 h')

/-- Every table bound in the chromosome dict built by the partitioner is one
of the input tables. -/
theorem mem_put_dfs_aux :
    ∀ (dfs : List Table) (acc : List (String × Table)) (p : String × Table),
      p ∈ dfs.foldl
        (fun d df =>
          match df.rows with
          | [] => d
          | r :: _ => assoc_put d r.Chromosome df) acc →
      p ∈ acc ∨ p.2 ∈ dfs := by
  intro dfs
  induction dfs with
  | nil =>
    intro acc p h
    exact Or.inl h
  | cons df dfs ih =>
    intro acc p h
    rw [List.foldl_cons] at h
    rcases ih _ p h with h' | h'
    · cases hrows : df.rows with
      | nil =>
        simp only [hrows] at h'
        exact Or.inl h'
      | cons r rest =>
        simp only [hrows] at h'
        rcases mem_assoc_put h' with h'' | h''
        · rw [h'']
          exact Or.inr (List.mem_cons_self df dfs)
        · exact Or.inl h''
    · exact Or.inr (List.mem_cons_of_mem df h')

/-- Specialization of the previous lemma to the partitioner itself. -/
theorem mem_put_dfs {dfs : List Table} {p : String × Table}
    (h : p ∈ put_dfs_in_chromosome_dict dfs) : p.2 ∈ dfs := by
  rw [put_dfs_in_chromosome_dict] at h
  rcases mem_put_dfs_aux dfs [] p h with h' | h'
  · exact absurd h' (List.not_mem_nil p)
  · exact h'

/-- A successful association-list lookup exhibits a member binding. -/
theorem lookup_mem {k : String} {t : Table} :
    ∀ {d : List (String × Table)}, d.lookup k = some t → (k, t) ∈ d := by
  intro d
  induction d with
  | nil => intro h; exact Option.noConfusion h
  | cons p d ih =>
    intro h
    obtain ⟨k', v⟩ := p
    simp only [List.lookup] at h
    split at h
    · rename_i heq
      injection h with h
      subst h
      rw [eq_of_beq heq]
      exact List.mem_cons_self (k', v) d
    · exact List.mem_cons_of_mem (k', v) (ih h)

/-- A row of the fetched per-chromosome table comes from a dict binding at
that chromosome. -/
theorem get_chromosome_rows {c : String} {d : List (String × Table)} {r : Row}
    (h : r ∈ (get_chromosome_df c d).rows) : ∃ t, (c, t) ∈ d ∧ r ∈ t.rows := by
  rw [get_chromosome_df] at h
  cases hl : d.lookup c with
  | none =>
    simp only [hl] at h
    exact absurd h (List.not_mem_nil r)
  | some t =>
    simp only [hl] at h
    exact ⟨t, lookup_mem hl, h⟩

/-- Every row of the treatment-side join result takes its key from a
treatment row. -/
theorem island_right_join_rows {islands : List Key} {chip_df : Table} {q : Row}
    (h : q ∈ (island_right_join islands chip_df).rows) :
    ∃ r ∈ chip_df.rows, q.Chromosome = r.Chromosome ∧ q.Bin = r.Bin := by
  simp only [island_right_join, List.mem_flatMap] at h
  obtain ⟨r, hr, hq⟩ := h
  refine ⟨r, hr, ?_⟩
  by_cases hms : (islands.filter (fun k => k == (r.Chromosome, r.Bin))).isEmpty
  · rw [if_pos hms] at hq
    rw [List.mem_singleton] at hq
    subst hq
    exact ⟨rfl, rfl⟩
  · rw [if_neg hms] at hq
    obtain ⟨k0, _, hk0⟩ := List.mem_map.1 hq
    rw [← hk0]
    exact ⟨rfl, rfl⟩

/-- Every row of an outer join takes its chromosome from one of the sides. -/
theorem outer_join_rows {l r : Table} {q : Row}
    (h : q ∈ (outer_join l r).rows) :
    (∃ p ∈ l.rows, q.Chromosome = p.Chromosome) ∨
    (∃ p ∈ r.rows, q.Chromosome = p.Chromosome) := by
  simp only [outer_join] at h
  rcases List.mem_append.1 h with h' | h'
  · simp only [List.mem_flatMap] at h'
    obtain ⟨lr, hlr, hq⟩ := h'
    by_cases hms : (r.rows.filter
        (fun rr => rr.Chromosome == lr.Chromosome && rr.Bin == lr.Bin)).isEmpty
    · rw [if_pos hms] at hq
      rw [List.mem_singleton] at hq
      exact Or.inl ⟨lr, hlr, by rw [hq]⟩
    · rw [if_neg hms] at hq
      obtain ⟨rr, _, hrr⟩ := List.mem_map.1 hq
      rw [← hrr]
      exact Or.inl ⟨lr, hlr, rfl⟩
  · obtain ⟨hq, _⟩ := List.mem_filter.1 h'
    exact Or.inr ⟨q, hq, rfl⟩

/-- Filling missing values keeps each row's chromosome. -/
theorem fillna0_rows {t : Table} {q : Row} (h : q ∈ (fillna0 t).rows) :
    ∃ p ∈ t.rows, q.Chromosome = p.Chromosome := by
  simp only [fillna0] at h
  obtain ⟨p, hp, hq⟩ := List.mem_map.1 h
  rw [← hq]
  exact ⟨p, hp, rfl⟩

/-- Every row of a per-chromosome merged matrix takes its chromosome from a
row of a table bound at that chromosome in one of the two dicts. -/
theorem create_one_rows {chromosome : String} {chipd inputd : List (String × Table)}
    {islands : List Key} {q : Row}
    (h : q ∈ (_create_matrixes chromosome chipd inputd islands).rows) :
    (∃ t, (chromosome, t) ∈ chipd ∧ ∃ p ∈ t.rows, q.Chromosome = p.Chromosome) ∨
    (∃ t, (chromosome, t) ∈ inputd ∧ ∃ p ∈ t.rows, q.Chromosome = p.Chromosome) := by
  simp only [_create_matrixes] at h
  obtain ⟨p1, hp1, hq1⟩ := fillna0_rows h
  rcases outer_join_rows hp1 with ⟨p2, hp2, hq2⟩ | ⟨p2, hp2, hq2⟩
  · obtain ⟨p3, hp3, hq3, _⟩ := island_right_join_rows hp2
    obtain ⟨t, ht, hp⟩ := get_chromosome_rows hp3
    exact Or.inl ⟨t, ht, p3, hp, by rw [hq1, hq2, hq3]⟩
  · obtain ⟨t, ht, hp⟩ := get_chromosome_rows hp2
    exact Or.inr ⟨t, ht, p2, hp, by rw [hq1, hq2]⟩

/-- C2 counterexample: both sample groups are empty, the island index for
"c1" holds bins 100 and 200, yet the orchestrator produces no per-chromosome
matrix at all — the merged matrix has no row for the island bins instead of
one zero-filled row per bin. -/
theorem C2_counterexample :
    create_matrixes [] [] [⟨"c1", 100, 250, 0⟩]
        ⟨["f1"], [], 100, 1, 1, false, false, false⟩ = some [] ∧
    island_entries [⟨"c1", 100, 250, 0⟩]
        ⟨["f1"], [], 100, 1, 1, false, false, false⟩ = [("c1", 100), ("c1", 200)] := by
  decide

/-- C2 amended: a chromosome carried by neither sample group is never
processed — whatever the island index holds for it, no row of any matrix
produced by the orchestrator has that chromosome. -/
theorem C2_absent_chromosome (chip input : List Table) (df : List Region)
    (args : Args) (c : String) (dfms : List Table) (t : Table) (r : Row)
    (h1 : ∀ tb ∈ chip, ∀ q ∈ tb.rows, q.Chromosome ≠ c)
    (h2 : ∀ tb ∈ input, ∀ q ∈ tb.rows, q.Chromosome ≠ c)
    (hd : create_matrixes chip input df args = some dfms)
    (ht : t ∈ dfms) (hr : r ∈ t.rows) : r.Chromosome ≠ c := by
  simp only [create_matrixes] at hd
  cases he : enriched_bins df args with
  | none =>
    simp only [he] at hd
    exact Option.noConfusion hd
  | some islands =>
    simp only [he] at hd
    injection hd with hd
    subst hd
    obtain ⟨c', _, hteq⟩ := List.mem_map.1 ht
    subst hteq
    rcases create_one_rows hr with ⟨tb, htb, p, hp, hqp⟩ | ⟨tb, htb, p, hp, hqp⟩
    · have hmem : tb ∈ chip := mem_put_dfs htb
      rw [hqp]
      exact h1 tb hmem p hp
    · have hmem : tb ∈ input := mem_put_dfs htb
      rw [hqp]
      exact h2 tb hmem p hp

/-- Witness for C2 at a concrete input: no table carries chromosome "c2", the
orchestrator builds one matrix for "c1", and its row's chromosome is not
"c2". -/
theorem C2_absent_chromosome_witness :
    (∀ tb ∈ [(⟨["f1"], [⟨"c1", 100, [("f1", 5)]⟩]⟩ : Table)],
        ∀ q ∈ tb.rows, q.Chromosome ≠ "c2") ∧
    create_matrixes [⟨["f1"], [⟨"c1", 100, [("f1", 5)]⟩]⟩] [] [⟨"c1", 100, 250, 0⟩]
        ⟨["f1"], [], 100, 1, 1, false, false, false⟩ =
      some [⟨["Island", "f1"], [⟨"c1", 100, [("Island", 1), ("f1", 5)]⟩]⟩] ∧
    (Row.mk "c1" 100 [("Island", 1), ("f1", 5)]).Chromosome ≠ "c2" :=
  ⟨by decide, by decide,
   C2_absent_chromosome [⟨["f1"], [⟨"c1", 100, [("f1", 5)]⟩]⟩] [] [⟨"c1", 100, 250, 0⟩]
     ⟨["f1"], [], 100, 1, 1, false, false, false⟩ "c2"
     [⟨["Island", "f1"], [⟨"c1", 100, [("Island", 1), ("f1", 5)]⟩]⟩]
     ⟨["Island", "f1"], [⟨"c1", 100, [("Island", 1), ("f1", 5)]⟩]⟩
     ⟨"c1", 100, [("Island", 1), ("f1", 5)]⟩
     (by decide) (by decide) (by decide) (by decide) (by decide)⟩

/-- Every per-chromosome merged matrix carries the Island marker column. -/
theorem island_mem_create_cols (chromosome : String)
    (chipd inputd : List (String × Table)) (islands : List Key) :
    "Island" ∈ (_create_matrixes chromosome chipd inputd islands).cols := by
  simp [_create_matrixes, fillna0, outer_join, island_right_join]

/-- Dropping the Island column removes it from the column list. -/
theorem drop_island_cols (t : Table) : "Island" ∉ (drop_island t).cols := by
  intro h
  rw [drop_island] at h
  obtain ⟨_, hne⟩ := List.mem_filter.1 h
  simp at hne

/-- C5 counterexample: on a run with `store_matrix` set, the matrix handed to
the writer still has columns ["Island", "f1"] — the Island marker is present
in the stored matrix, and only the bedgraph-side matrix has it dropped. -/
theorem C5_counterexample :
    (write_matrix_files [⟨["f1"], [⟨"c1", 100, [("f1", 5)]⟩]⟩] []
        [⟨"c1", 100, 250, 0⟩] ⟨["f1"], [], 100, 1, 1, true, false, false⟩).map
      (fun o => (o.stored.map (fun ms => ms.map Table.cols), o.matrix.cols)) =
      some (some [["Island", "f1"]], ["f1"]) := by decide

/-- C5 amended: the per-chromosome matrixes are handed to the matrix writer
before the Island column is dropped, so every stored matrix still contains
the Island column, while the concatenated matrix used by the bedgraph
exporters has it removed. -/
theorem C5_island_in_stored (chip input : List Table) (df : List Region)
    (args : Args) (out : WMFOut) (ms : List Table) (t : Table)
    (h : write_matrix_files chip input df args = some out)
    (hs : out.stored = some ms) (ht : t ∈ ms) :
    "Island" ∈ t.cols ∧ "Island" ∉ out.matrix.cols := by
  rw [write_matrix_files] at h
  cases hc : create_matrixes chip input df args with
  | none =>
    simp only [hc] at h
    exact Option.noConfusion h
  | some matrixes =>
    simp only [hc] at h
    split at h
    · exact Option.noConfusion h
    · split at h
      · exact Option.noConfusion h
      · split at h
        · exact Option.noConfusion h
        · injection h with h
          subst h
          dsimp only at hs ⊢
          split at hs
          · injection hs with hs
            subst hs
            refine ⟨?_, drop_island_cols _⟩
            simp only [create_matrixes] at hc
            cases he : enriched_bins df args with
            | none =>
              simp only [he] at hc
              exact Option.noConfusion hc
            | some islands =>
              simp only [he] at hc
              injection hc with hc
              subst hc
              obtain ⟨c', _, hteq⟩ := List.mem_map.1 ht
              rw [← hteq]
              exact island_mem_create_cols c' _ _ islands
          · exact Option.noConfusion hs

/-- Witness for C5 at a concrete input: the stored matrix has columns
["Island", "f1"] and the exporter-side matrix only ["f1"]. -/
theorem C5_island_in_stored_witness :
    write_matrix_files [⟨["f1"], [⟨"c1", 100, [("f1", 5)]⟩]⟩] [] [⟨"c1", 100, 250, 0⟩]
        ⟨["f1"], [], 100, 1, 1, true, false, false⟩ =
      some ⟨some [⟨["Island", "f1"], [⟨"c1", 100, [("Island", 1), ("f1", 5)]⟩]⟩],
            ⟨["f1"], [⟨"c1", 100, [("f1", 5)]⟩]⟩, none, none⟩ ∧
    ("Island" ∈ (Table.mk ["Island", "f1"] [⟨"c1", 100, [("Island", 1), ("f1", 5)]⟩]).cols ∧
     "Island" ∉ (Table.mk ["f1"] [⟨"c1", 100, [("f1", 5)]⟩]).cols) :=
  ⟨by decide,
   C5_island_in_stored [⟨["f1"], [⟨"c1", 100, [("f1", 5)]⟩]⟩] [] [⟨"c1", 100, 250, 0⟩]
     ⟨["f1"], [], 100, 1, 1, true, false, false⟩
     ⟨some [⟨["Island", "f1"], [⟨"c1", 100, [("Island", 1), ("f1", 5)]⟩]⟩],
      ⟨["f1"], [⟨"c1", 100, [("f1", 5)]⟩]⟩, none, none⟩
     [⟨["Island", "f1"], [⟨"c1", 100, [("Island", 1), ("f1", 5)]⟩]⟩]
     ⟨["Island", "f1"], [⟨"c1", 100, [("Island", 1), ("f1", 5)]⟩]⟩
     (by decide) (by decide) (by decide)⟩
